import Mathlib

/-!
Verification of the `dingodb/dingocli` component version-resolution and
installation-state manager, shallowly embedded from
`src/internal/component/repo.go` and the spec of the component manager.

Go maps are embedded as association lists (`List (String × _)`); Go's
byte-wise string comparison is Lean's lexicographic `String` order.
-/

/-- Per tag/branch/commit entry of a component's remote build catalog
(`BinaryDetail` in `repo.go`). -/
structure BinaryDetail where
  path : String
  buildTime : String
  size : String
  commit : String
deriving DecidableEq, Repr

/-- A component's remote build catalog (`BinaryRepoData` in `repo.go`);
the Go maps `branches`, `commits`, `tags` become association lists. -/
structure BinaryRepoData where
  binary : String
  generatedAt : String
  branches : List (String × BinaryDetail)
  commits : List (String × BinaryDetail)
  tags : List (String × BinaryDetail)
deriving DecidableEq, Repr

/-- `LASTEST_VERSION` constant (sic) from the component package. -/
def LASTEST_VERSION : String := "latest"

/-- `MAIN_VERSION` constant from the component package. -/
def MAIN_VERSION : String := "main"

/-- The running maximum computed by `GetLatest`'s loop:
`for version := range b.Tags { if version > latest { latest = version } }`,
started from the accumulator `a`. -/
def latestScan (a : String) (l : List (String × BinaryDetail)) : String :=
  l.foldl (fun acc p => if acc < p.1 then p.1 else acc) a

/-- `(b *BinaryRepoData) GetLatest` from `repo.go`: scan the tag labels for
the string maximum starting from the seed `"v0.0.0"`, then look that label
up in the tags map; `(label, detail, true)` on hit, `("", nil, false)` on
miss. -/
def BinaryRepoData.getLatest (b : BinaryRepoData) : Option (String × BinaryDetail) :=
  let latest := latestScan "v0.0.0" b.tags
  match List.lookup latest b.tags with
  | some tag => some (latest, tag)
  | none => none

/-- `(b *BinaryRepoData) GetMain` from `repo.go`: the `MAIN_VERSION` entry
of the branches map, if present. -/
def BinaryRepoData.getMain (b : BinaryRepoData) : Option BinaryDetail :=
  List.lookup MAIN_VERSION b.branches

/-- `(b *BinaryRepoData) FindVersion` from `repo.go`: exact lookup of the
requested tag in the tags map only. -/
def BinaryRepoData.findVersion (b : BinaryRepoData) (tag : String) : Option BinaryDetail :=
  List.lookup tag b.tags

/-- Ledger entry (`Component` in the component package): the persisted
fields are `name, version, commit, installed, active, release, path, url`;
`updatable` carries the json tag `"-"` and is never persisted. -/
structure Component where
  name : String
  version : String
  commit : String
  isInstalled : Bool
  isActive : Bool
  release : String
  path : String
  url : String
  updatable : Bool
deriving DecidableEq, Repr

/-- The persisted (JSON) shape of a ledger entry: exactly the eight
json-tagged fields of `Component`; `updatable` has no persisted field. -/
structure PersistedComponent where
  name : String
  version : String
  commit : String
  installed : Bool
  active : Bool
  release : String
  path : String
  url : String
deriving DecidableEq, Repr

/-- Serialization of one ledger entry: copy the eight json-tagged fields;
`updatable` (json tag `"-"`) is dropped. -/
def persistComponent (c : Component) : PersistedComponent :=
  { name := c.name, version := c.version, commit := c.commit,
    installed := c.isInstalled, active := c.isActive,
    release := c.release, path := c.path, url := c.url }

/-- Deserialization of one ledger entry: the eight persisted fields are
restored and the non-persisted `updatable` flag takes its zero value. -/
def restoreComponent (p : PersistedComponent) : Component :=
  { name := p.name, version := p.version, commit := p.commit,
    isInstalled := p.installed, isActive := p.active,
    release := p.release, path := p.path, url := p.url,
    updatable := false }

/-- Modelled from the spec: `SaveInstalledComponents` serializes the
ordered ledger (the Go implementation of the component manager is not
under `src/`; the JSON byte encoding is out of scope, persistence is the
ordered list of persisted records). -/
def marshalComponents (l : List Component) : List PersistedComponent :=
  l.map persistComponent

/-- Modelled from the spec: loading parses the persisted records back into
ledger entries, in order. -/
def unmarshalComponents (ps : List PersistedComponent) : List Component :=
  ps.map restoreComponent

/-- The three relevant states of the backing ledger file: absent,
present but malformed, or present with a parsed list of records. -/
inductive LedgerFile where
  | absent : LedgerFile
  | malformed : LedgerFile
  | parsed : List PersistedComponent → LedgerFile
deriving DecidableEq

/-- Modelled from the spec: `LoadInstalledComponents` — a missing file is
an empty ledger and no error; malformed content is a parse error;
otherwise the parsed records are restored in order. -/
def loadInstalledComponents : LedgerFile → Except String (List Component)
  | LedgerFile.absent => Except.ok []
  | LedgerFile.malformed => Except.error "failed to parse JSON"
  | LedgerFile.parsed ps => Except.ok (unmarshalComponents ps)

/-- The component manager (`ComponentManager`): the in-memory ledger
`installed`, the per-name catalog cache `repodata` and the mirror base. -/
structure ComponentManager where
  installed : List Component
  repodata : List (String × BinaryRepoData)
  mirror : String
deriving DecidableEq

/-- The ledger identity test used by the manager's operations: exact match
on both `name` and `version`. -/
def matchesComponent (name version : String) (c : Component) : Bool :=
  c.name == name && c.version == version

/-- Modelled from the spec: `ComponentManager.FindVersion` dispatch
(`latest` → catalog latest-tag lookup, `main` → catalog main-branch
lookup, otherwise exact tag lookup), with `NotFoundError` messages
`"<name> not found in repository"` and `"version '<v>' not found"`. -/
def ComponentManager.findVersion (cm : ComponentManager) (name version : String) :
    Except String (String × BinaryDetail) :=
  match List.lookup name cm.repodata with
  | none => Except.error (name ++ " not found in repository")
  | some repo =>
    if version = LASTEST_VERSION then
      match repo.getLatest with
      | some (tag, detail) => Except.ok (tag, detail)
      | none => Except.error ("version '" ++ version ++ "' not found")
    else if version = MAIN_VERSION then
      match repo.getMain with
      | some detail => Except.ok (version, detail)
      | none => Except.error ("version '" ++ version ++ "' not found")
    else
      match repo.findVersion version with
      | some detail => Except.ok (version, detail)
      | none => Except.error ("version '" ++ version ++ "' not found")

/-- Modelled from the spec: `SetDefaultVersion` requires the `(name,
version)` entry to be installed, else `NotInstalledError`; on success the
target becomes active and every other same-name entry inactive. -/
def ComponentManager.setDefaultVersion (cm : ComponentManager) (name version : String) :
    Except String ComponentManager :=
  if cm.installed.any (matchesComponent name version) then
    Except.ok { cm with installed := cm.installed.map fun c =>
      if c.name == name then { c with isActive := c.version == version } else c }
  else
    Except.error (name ++ ":" ++ version ++ " not installed")

/-- Modelled from the spec: `RemoveComponent` fails with
`NotInstalledError` when the entry is absent, refuses to remove an active
entry unless forced, and otherwise drops the entry from the ledger (the
on-disk deletion skipped under `dryRun` is out of scope). -/
def ComponentManager.removeComponent (cm : ComponentManager) (name version : String)
    (force dryRun : Bool) : Except String ComponentManager :=
  match cm.installed.find? (matchesComponent name version) with
  | none => Except.error (name ++ ":" ++ version ++ " not installed")
  | some c =>
    if c.isActive && !force then
      Except.error "cannot remove active component"
    else
      Except.ok { cm with installed := cm.installed.eraseP (matchesComponent name version) }

/-- Modelled from the spec: `UpdateState` compares the remote release
timestamp against the stored one in plain string order; strictly newer
marks the entry updatable and answers true, otherwise (or when no entry
matches) it answers false and changes nothing. -/
def ComponentManager.updateState (cm : ComponentManager) (name version release : String) :
    Bool × ComponentManager :=
  match cm.installed.find? (matchesComponent name version) with
  | none => (false, cm)
  | some c =>
    if c.release < release then
      (true, { cm with installed := cm.installed.map fun d =>
        if matchesComponent name version d then { d with updatable := true } else d })
    else
      (false, cm)

/-- Modelled from the spec: `URLJoin` of the mirror base and an entry path
(the slash normalisation of the Go implementation is elided). -/
def urlJoin (base p : String) : String :=
  base ++ "/" ++ p

/-- Modelled from the spec: the ephemeral record built by
`LoadAvailableComponentVersions` for one tag or branch entry:
`installed=false`, `active=false`, URL joined from the mirror base. -/
def availableComponent (name mirror : String) (p : String × BinaryDetail) : Component :=
  { name := name, version := p.1, commit := p.2.commit,
    isInstalled := false, isActive := false, release := p.2.buildTime,
    path := p.2.path, url := urlJoin mirror p.2.path, updatable := false }

/-- Modelled from the spec: `LoadAvailableComponentVersions` fails when the
catalog for `name` is absent and cannot be fetched, and otherwise returns
one record per tag and one per branch (commits contribute none). -/
def ComponentManager.loadAvailableComponentVersions (cm : ComponentManager) (name : String) :
    Except String (List Component) :=
  match List.lookup name cm.repodata with
  | none => Except.error (name ++ " not found in repository")
  | some repo =>
    Except.ok (repo.tags.map (availableComponent name cm.mirror) ++
      repo.branches.map (availableComponent name cm.mirror))

/-- Build descriptor used by the concrete examples. -/
def detailV1 : BinaryDetail :=
  { path := "/tags/v1.0.0", buildTime := "2023-01-01T00:00:00Z", size := "10MB", commit := "abc123" }

/-- Build descriptor used by the concrete examples. -/
def detailV2 : BinaryDetail :=
  { path := "/tags/v2.0.0", buildTime := "2023-02-01T00:00:00Z", size := "15MB", commit := "def456" }

/-- Build descriptor used by the concrete examples. -/
def detailV15 : BinaryDetail :=
  { path := "/tags/v1.5.0", buildTime := "2023-01-15T00:00:00Z", size := "12MB", commit := "mid789" }

/-- Build descriptor of the `main` branch in the concrete examples. -/
def detailMain : BinaryDetail :=
  { path := "/branches/main", buildTime := "2023-03-01T00:00:00Z", size := "11MB", commit := "main-commit" }

/-- The catalog of the spec's latest-tag example: tags
`v1.0.0`, `v2.0.0`, `v1.5.0`. -/
def catalogThree : BinaryRepoData :=
  { binary := "dingo-mds", generatedAt := "2023-01-01T00:00:00Z",
    branches := [("main", detailMain)], commits := [],
    tags := [("v1.0.0", detailV1), ("v2.0.0", detailV2), ("v1.5.0", detailV15)] }

/-- A catalog whose only tag label sorts below the `"v0.0.0"` seed. -/
def catalogBelowSeed : BinaryRepoData :=
  { binary := "dingo-mds", generatedAt := "2023-01-01T00:00:00Z",
    branches := [], commits := [], tags := [("release-1", detailV1)] }

/-- The manager of the catalog-resolution examples. -/
def managerRepo : ComponentManager :=
  { installed := [], repodata := [("dingo-mds", catalogThree)], mirror := "https://example.com" }

/-- Ledger entry `dingo-mds v1.0.0`, active. -/
def compMds100 : Component :=
  { name := "dingo-mds", version := "v1.0.0", commit := "abc123",
    isInstalled := true, isActive := true, release := "2023-01-01T00:00:00Z",
    path := "/install/mds/v1.0.0", url := "https://example.com/tags/v1.0.0",
    updatable := false }

/-- Ledger entry `dingo-mds v1.1.0`, inactive. -/
def compMds110 : Component :=
  { name := "dingo-mds", version := "v1.1.0", commit := "bcd234",
    isInstalled := true, isActive := false, release := "2023-02-01T00:00:00Z",
    path := "/install/mds/v1.1.0", url := "https://example.com/tags/v1.1.0",
    updatable := false }

/-- Ledger entry `dingo-client v1.0.0`, active. -/
def compClient100 : Component :=
  { name := "dingo-client", version := "v1.0.0", commit := "cde345",
    isInstalled := true, isActive := true, release := "2023-01-01T00:00:00Z",
    path := "/install/client/v1.0.0", url := "https://example.com/tags/client-v1.0.0",
    updatable := false }

/-- The ledger manager of the ledger examples. -/
def managerLedger : ComponentManager :=
  { installed := [compMds100, compMds110, compClient100], repodata := [], mirror := "" }

/-- The ledger after `SetDefaultVersion("dingo-mds", "v1.1.0")` on
`managerLedger`. -/
def managerLedgerActivated : ComponentManager :=
  { installed :=
      [{ compMds100 with isActive := false }, { compMds110 with isActive := true },
        compClient100],
    repodata := [], mirror := "" }

/-- The available-version records of `catalogThree` as listed for
`dingo-mds` against the example mirror. -/
def availEx : List Component :=
  catalogThree.tags.map (availableComponent "dingo-mds" "https://example.com") ++
    catalogThree.branches.map (availableComponent "dingo-mds" "https://example.com")

section ScanLemmas

theorem latestScan_init_le (a : String) (l : List (String × BinaryDetail)) :
    a ≤ latestScan a l := by
  induction l generalizing a with
  | nil => exact le_refl a
  | cons p l ih =>
    simp only [latestScan, List.foldl_cons] at *
    refine le_trans ?_ (ih (if a < p.1 then p.1 else a))
    split
    · exact le_of_lt (by assumption)
    · exact le_refl a

theorem latestScan_le_of_mem (a : String) (l : List (String × BinaryDetail))
    (p : String × BinaryDetail) (hp : p ∈ l) : p.1 ≤ latestScan a l := by
  induction l generalizing a with
  | nil => cases hp
  | cons q l ih =>
    simp only [latestScan, List.foldl_cons] at *
    rcases List.mem_cons.mp hp with h | h
    · subst h
      refine le_trans ?_ (latestScan_init_le (if a < p.1 then p.1 else a) l)
      split
      · exact le_refl p.1
      · exact le_of_not_lt (by assumption)
    · exact ih (if a < q.1 then q.1 else a) h

theorem latestScan_eq_init_or_mem (a : String) (l : List (String × BinaryDetail)) :
    latestScan a l = a ∨ ∃ p ∈ l, latestScan a l = p.1 := by
  induction l generalizing a with
  | nil => exact Or.inl rfl
  | cons q l ih =>
    simp only [latestScan, List.foldl_cons] at *
    rcases ih (if a < q.1 then q.1 else a) with h | ⟨p, hp, hval⟩
    · rw [h]
      split
      · exact Or.inr ⟨q, List.mem_cons_self q l, rfl⟩
      · exact Or.inl rfl
    · exact Or.inr ⟨p, List.mem_cons_of_mem q hp, hval⟩

end ScanLemmas

section LookupLemmas

theorem string_lt_iff (a b : String) : a < b ↔ a.data < b.data :=
  String.lt_iff_toList_lt

theorem string_le_iff (a b : String) : a ≤ b ↔ a.data ≤ b.data :=
  String.le_iff_toList_le

theorem lookup_some_mem {β : Type} {k : String} {v : β} {l : List (String × β)}
    (h : List.lookup k l = some v) : (k, v) ∈ l := by
  induction l with
  | nil => simp [List.lookup] at h
  | cons p l ih =>
    simp only [List.lookup] at h
    split at h
    · next heq =>
      cases h
      have hk : k = p.1 := (beq_iff_eq ..).mp heq
      subst hk
      exact List.mem_cons_self _ _
    · exact List.mem_cons_of_mem _ (ih h)

theorem lookup_none_of_forall {β : Type} {k : String} {l : List (String × β)}
    (h : ∀ p ∈ l, p.1 ≠ k) : List.lookup k l = none := by
  induction l with
  | nil => rfl
  | cons p l ih =>
    simp only [List.lookup]
    cases hb : k == p.1 with
    | true => exact absurd ((beq_iff_eq ..).mp hb).symm (h p (List.mem_cons_self p l))
    | false => exact ih fun q hq => h q (List.mem_cons_of_mem p hq)

theorem lookup_some_of_mem_nodup {β : Type} {k : String} {v : β}
    {l : List (String × β)} (hmem : (k, v) ∈ l)
    (hnd : (l.map Prod.fst).Nodup) : List.lookup k l = some v := by
  induction l with
  | nil => cases hmem
  | cons p l ih =>
    simp only [List.map_cons, List.nodup_cons] at hnd
    rcases List.mem_cons.mp hmem with h | h
    · subst h
      simp [List.lookup]
    · simp only [List.lookup]
      cases hb : k == p.1 with
      | true =>
        have hk : k = p.1 := (beq_iff_eq ..).mp hb
        exact absurd (hk ▸ List.mem_map_of_mem Prod.fst h) hnd.1
      | false => exact ih h hnd.2

end LookupLemmas

section GetLatestLemmas

/-- When every tag label is lexicographically below the seed `"v0.0.0"`,
the scan ends on the seed, the seed is not a tag, and `GetLatest` misses. -/
theorem getLatest_none_of_all_lt (b : BinaryRepoData)
    (hlt : ∀ q ∈ b.tags, q.1 < "v0.0.0") : b.getLatest = none := by
  have hm : latestScan "v0.0.0" b.tags = "v0.0.0" := by
    rcases latestScan_eq_init_or_mem "v0.0.0" b.tags with h | ⟨p, hp, hval⟩
    · exact h
    · exact absurd (lt_of_lt_of_le (hlt p hp) (latestScan_init_le "v0.0.0" b.tags))
        (hval ▸ lt_irrefl _)
  have hnone : List.lookup (latestScan "v0.0.0" b.tags) b.tags = none := by
    rw [hm]
    exact lookup_none_of_forall fun p hp => ne_of_lt (hlt p hp)
  simp only [BinaryRepoData.getLatest, hnone]

/-- When `(ℓ, d)` is a tag binding whose label is the maximum of all tag
labels and is at least the seed `"v0.0.0"`, `GetLatest` returns it. -/
theorem getLatest_some_of_max (b : BinaryRepoData) (ℓ : String) (d : BinaryDetail)
    (hnd : (b.tags.map Prod.fst).Nodup) (hmem : (ℓ, d) ∈ b.tags)
    (hmax : ∀ q ∈ b.tags, q.1 ≤ ℓ) (hge : "v0.0.0" ≤ ℓ) :
    b.getLatest = some (ℓ, d) := by
  have hm : latestScan "v0.0.0" b.tags = ℓ := by
    refine le_antisymm ?_ (latestScan_le_of_mem "v0.0.0" b.tags (ℓ, d) hmem)
    rcases latestScan_eq_init_or_mem "v0.0.0" b.tags with h | ⟨p, hp, hval⟩
    · rw [h]; exact hge
    · rw [hval]; exact hmax p hp
  have hsome : List.lookup ℓ b.tags = some d := lookup_some_of_mem_nodup hmem hnd
  simp only [BinaryRepoData.getLatest, hm, hsome]

end GetLatestLemmas

/-- C1 (amended): resolving the version token `latest` returns the
lexicographically maximum tag label together with that tag's descriptor
whenever the maximum label is at least the seed `"v0.0.0"`; it fails with
a not-found result when every tag label — if any — is lexicographically
below `"v0.0.0"`, which in particular covers a catalog with zero tags. -/
theorem latest_resolution_spec (b : BinaryRepoData) (ℓ : String) (d : BinaryDetail)
    (hnd : (b.tags.map Prod.fst).Nodup) :
    ((ℓ, d) ∈ b.tags → (∀ q ∈ b.tags, q.1 ≤ ℓ) → "v0.0.0" ≤ ℓ →
      b.getLatest = some (ℓ, d)) ∧
    ((∀ q ∈ b.tags, q.1 < "v0.0.0") → b.getLatest = none) :=
  ⟨fun hmem hmax hge => getLatest_some_of_max b ℓ d hnd hmem hmax hge,
   fun hlt => getLatest_none_of_all_lt b hlt⟩

/-- C1 counterexample: `catalogBelowSeed` has one tag, yet `GetLatest`
answers not-found — so "fails exactly when the catalog has zero tags" is
false of the code, and the lexicographic maximum `"release-1"` is not
returned either. -/
theorem latest_resolution_cex :
    catalogBelowSeed.tags ≠ [] ∧ catalogBelowSeed.getLatest = none := by
  constructor
  · decide
  · exact getLatest_none_of_all_lt catalogBelowSeed (by
      intro q hq
      simp only [catalogBelowSeed, List.mem_singleton] at hq
      subst hq
      rw [string_lt_iff]
      decide)

/-- C1 witness: on the catalog with tags `v1.0.0`, `v2.0.0`, `v1.5.0` the
resolved label is `v2.0.0` with its descriptor. -/
theorem latest_resolution_witness :
    catalogThree.getLatest = some ("v2.0.0", detailV2) :=
  (latest_resolution_spec catalogThree "v2.0.0" detailV2 (by decide)).1
    (by decide)
    (by
      intro q hq
      simp only [catalogThree, List.mem_cons, List.not_mem_nil, or_false] at hq
      rcases hq with rfl | rfl | rfl <;> simp only [string_le_iff] <;> decide)
    (by rw [string_le_iff]; decide)

/-- C10: the latest-tag scan is seeded with `"v0.0.0"`, so a catalog whose
tags are non-empty but all lexicographically below `"v0.0.0"` makes
`GetLatest` answer not-found even though tags exist. -/
theorem getLatest_seed_spec (b : BinaryRepoData) (hne : b.tags ≠ [])
    (hlt : ∀ q ∈ b.tags, q.1 < "v0.0.0") : b.getLatest = none :=
  getLatest_none_of_all_lt b hlt

/-- C10 witness: the single-tag catalog `{"release-1"}` yields not-found. -/
theorem getLatest_seed_witness : catalogBelowSeed.getLatest = none :=
  getLatest_seed_spec catalogBelowSeed (by decide) (by
    intro q hq
    simp only [catalogBelowSeed, List.mem_singleton] at hq
    subst hq
    rw [string_lt_iff]
    decide)

/-- C8: resolving the version token `main` returns the branches-map entry
stored under the key `"main"` when present, and answers not-found when no
`main` branch exists (an empty branches map included). -/
theorem getMain_spec (b : BinaryRepoData) (d : BinaryDetail)
    (hnd : (b.branches.map Prod.fst).Nodup) :
    (("main", d) ∈ b.branches → b.getMain = some d) ∧
    ((∀ p ∈ b.branches, p.1 ≠ "main") → b.getMain = none) := by
  constructor
  · intro hmem
    simp only [BinaryRepoData.getMain, MAIN_VERSION]
    exact lookup_some_of_mem_nodup hmem hnd
  · intro hall
    simp only [BinaryRepoData.getMain, MAIN_VERSION]
    exact lookup_none_of_forall hall

/-- C8 witness: the example catalog resolves `main` to its main-branch
descriptor. -/
theorem getMain_witness : catalogThree.getMain = some detailMain :=
  (getMain_spec catalogThree detailMain (by decide)).1 (by decide)

/-- C6: for a loaded catalog and a requested version other than `latest`
and `main`, resolution is an exact match against the tags map only — any
successful result is a tag binding carrying the literal requested label —
and a missing tag fails with `NotFoundError` whose message is
`"version '<v>' not found"` (it contains the requested string), no matter
what the branches and commits maps hold. -/
theorem findVersion_exact_spec (cm : ComponentManager) (name version : String)
    (repo : BinaryRepoData) (hrepo : List.lookup name cm.repodata = some repo)
    (hlat : version ≠ LASTEST_VERSION) (hmain : version ≠ MAIN_VERSION) :
    (∀ p, cm.findVersion name version = Except.ok p → p.1 = version ∧ p ∈ repo.tags) ∧
    ((∀ q ∈ repo.tags, q.1 ≠ version) →
      cm.findVersion name version = Except.error ("version '" ++ version ++ "' not found")) := by
  constructor
  · intro p hp
    cases hfv : repo.findVersion version with
    | none =>
      have hcase : cm.findVersion name version =
          Except.error ("version '" ++ version ++ "' not found") := by
        simp only [ComponentManager.findVersion, hrepo, if_neg hlat, if_neg hmain, hfv]
      rw [hcase] at hp
      simp at hp
    | some detail =>
      have hcase : cm.findVersion name version = Except.ok (version, detail) := by
        simp only [ComponentManager.findVersion, hrepo, if_neg hlat, if_neg hmain, hfv]
      rw [hcase] at hp
      cases hp
      exact ⟨rfl, lookup_some_mem hfv⟩
  · intro hall
    have hfv : repo.findVersion version = none := lookup_none_of_forall hall
    simp only [ComponentManager.findVersion, hrepo, if_neg hlat, if_neg hmain, hfv]

/-- C6 witness: requesting `v999.0.0` from the example catalog fails with
the message naming `v999.0.0`. -/
theorem findVersion_exact_witness :
    managerRepo.findVersion "dingo-mds" "v999.0.0" =
      Except.error ("version '" ++ "v999.0.0" ++ "' not found") :=
  (findVersion_exact_spec managerRepo "dingo-mds" "v999.0.0" catalogThree rfl
    (by decide) (by decide)).2 (by decide)

section LedgerLemmas

theorem forall₂_map_self {α : Type} (l : List α) (f : α → α) (r : α → α → Prop)
    (h : ∀ a ∈ l, r a (f a)) : List.Forall₂ r l (l.map f) := by
  induction l with
  | nil => exact List.Forall₂.nil
  | cons a l ih =>
    exact List.Forall₂.cons (h a (List.mem_cons_self a l))
      (ih fun b hb => h b (List.mem_cons_of_mem a hb))

theorem matchesComponent_iff (name version : String) (c : Component) :
    matchesComponent name version c = true ↔ c.name = name ∧ c.version = version := by
  simp [matchesComponent]

theorem countP_matches_eq_one (l : List Component) (name version : String)
    (hnd : (l.map fun c => (c.name, c.version)).Nodup)
    (c₀ : Component) (hc₀ : c₀ ∈ l) (hm₀ : matchesComponent name version c₀ = true) :
    l.countP (matchesComponent name version) = 1 := by
  induction l with
  | nil => cases hc₀
  | cons c l ih =>
    simp only [List.map_cons, List.nodup_cons] at hnd
    cases hmc : matchesComponent name version c with
    | true =>
      rw [List.countP_cons_of_pos _ _ hmc]
      have hzero : l.countP (matchesComponent name version) = 0 := by
        rw [List.countP_eq_zero]
        intro c' hc' hm'
        rcases (matchesComponent_iff name version c').mp hm' with ⟨h1, h2⟩
        rcases (matchesComponent_iff name version c).mp hmc with ⟨h3, h4⟩
        refine hnd.1 ?_
        have hpair : ((c.name, c.version) : String × String) = (c'.name, c'.version) := by
          rw [h1, h2, h3, h4]
        rw [hpair]
        exact List.mem_map_of_mem _ hc'
      rw [hzero]
    | false =>
      rw [List.countP_cons_of_neg]
      · rcases List.mem_cons.mp hc₀ with h | h
        · rw [h] at hm₀; rw [hm₀] at hmc; cases hmc
        · exact ih hnd.2 h
      · simp [hmc]

end LedgerLemmas

/-- C4: saving a ledger and then loading the saved records yields the same
ordered sequence of entries: each of the eight persisted fields
round-trips value-for-value, entry order is preserved, and the
non-persisted `updatable` flag is false on every loaded entry. -/
theorem saveLoad_roundtrip (l : List Component) :
    List.Forall₂ (fun c c' =>
      c'.name = c.name ∧ c'.version = c.version ∧ c'.commit = c.commit ∧
      c'.isInstalled = c.isInstalled ∧ c'.isActive = c.isActive ∧
      c'.release = c.release ∧ c'.path = c.path ∧ c'.url = c.url ∧
      c'.updatable = false)
      l (unmarshalComponents (marshalComponents l)) := by
  induction l with
  | nil => exact List.Forall₂.nil
  | cons c l ih =>
    exact List.Forall₂.cons ⟨rfl, rfl, rfl, rfl, rfl, rfl, rfl, rfl, rfl⟩ ih

/-- C7: loading the ledger when the backing file is absent yields the
empty ledger without error; a present but malformed file fails with an
error; a present file holding the empty list yields the empty ledger
without error. -/
theorem loadInstalled_spec :
    loadInstalledComponents LedgerFile.absent = Except.ok [] ∧
    loadInstalledComponents LedgerFile.malformed = Except.error "failed to parse JSON" ∧
    loadInstalledComponents (LedgerFile.parsed []) = Except.ok [] :=
  ⟨rfl, rfl, rfl⟩

/-- C2: when the `(name, version)` entry is installed, `SetActive`
succeeds and afterwards exactly one entry with that name is active, it is
the entry for `version` (active holds iff the version matches), and
entries with other names are unchanged in place; when no such entry
exists, it fails with the not-installed error. -/
theorem setActive_spec (cm : ComponentManager) (name version : String)
    (hnd : (cm.installed.map fun c => (c.name, c.version)).Nodup) :
    (∀ cm', cm.setDefaultVersion name version = Except.ok cm' →
      cm'.installed.countP (fun c => c.name == name && c.isActive) = 1 ∧
      (∀ c ∈ cm'.installed, c.name = name → (c.isActive = true ↔ c.version = version)) ∧
      List.Forall₂ (fun c c' => c.name ≠ name → c' = c) cm.installed cm'.installed) ∧
    ((∀ c ∈ cm.installed, ¬(c.name = name ∧ c.version = version)) →
      cm.setDefaultVersion name version =
        Except.error (name ++ ":" ++ version ++ " not installed")) := by
  constructor
  · intro cm' hok
    cases hany : cm.installed.any (matchesComponent name version) with
    | false => simp [ComponentManager.setDefaultVersion, hany] at hok
    | true =>
      simp only [ComponentManager.setDefaultVersion, hany, if_true] at hok
      rcases List.any_eq_true.mp hany with ⟨c₀, hc₀, hm₀⟩
      cases hok
      refine ⟨?_, ?_, ?_⟩
      · rw [List.countP_map]
        have hcongr : ∀ c ∈ cm.installed,
            ((fun c => c.name == name && c.isActive) ∘ fun c =>
              if c.name == name then { c with isActive := c.version == version } else c) c
              = true ↔ matchesComponent name version c = true := by
          intro c _
          by_cases hn : c.name = name
          · simp [matchesComponent, beq_iff_eq, hn]
          · simp [matchesComponent, beq_iff_eq, hn]
        rw [List.countP_congr hcongr]
        exact countP_matches_eq_one cm.installed name version hnd c₀ hc₀ hm₀
      · intro c hc hname
        rcases List.mem_map.mp hc with ⟨a, ha, rfl⟩
        by_cases hn : a.name = name
        · simp [beq_iff_eq, hn]
        · have hnb : (a.name == name) = false := by
            simp only [beq_eq_false_iff_ne]
            exact hn
          simp only [hnb, Bool.false_eq_true, if_false] at hname
          exact absurd hname hn
      · apply forall₂_map_self
        intro a _ hna
        have hnb : (a.name == name) = false := by
          simp only [beq_eq_false_iff_ne]
          exact hna
        simp [hnb]
  · intro hall
    have hany : cm.installed.any (matchesComponent name version) = false := by
      rw [List.any_eq_false]
      intro c hc
      rw [matchesComponent_iff]
      exact hall c hc
    simp [ComponentManager.setDefaultVersion, hany]

/-- C2 witness: activating `dingo-mds v1.1.0` in the example ledger leaves
exactly one active `dingo-mds` entry; activating an uninstalled version
fails with the not-installed error. -/
theorem setActive_witness :
    managerLedgerActivated.installed.countP
      (fun c => c.name == "dingo-mds" && c.isActive) = 1 ∧
    managerLedger.setDefaultVersion "dingo-mds" "v999.0.0" =
      Except.error ("dingo-mds" ++ ":" ++ "v999.0.0" ++ " not installed") := by
  constructor
  · exact ((setActive_spec managerLedger "dingo-mds" "v1.1.0" (by decide)).1
      managerLedgerActivated rfl).1
  · exact (setActive_spec managerLedger "dingo-mds" "v999.0.0" (by decide)).2 (by decide)

/-- C3: removing an active entry without `force` always fails with the
active-component error; the same removal with `force` succeeds and the
ledger shrinks by exactly one entry; removing a pair with no matching
entry fails with the not-installed error. -/
theorem removeComponent_spec (cm : ComponentManager) (name version : String)
    (dryRun : Bool) :
    (∀ c, cm.installed.find? (matchesComponent name version) = some c →
      c.isActive = true →
      cm.removeComponent name version false dryRun =
        Except.error "cannot remove active component") ∧
    (∀ c, cm.installed.find? (matchesComponent name version) = some c →
      (cm.removeComponent name version true dryRun).isOk = true ∧
      ∀ cm', cm.removeComponent name version true dryRun = Except.ok cm' →
        cm'.installed.length + 1 = cm.installed.length) ∧
    (cm.installed.find? (matchesComponent name version) = none →
      cm.removeComponent name version false dryRun =
        Except.error (name ++ ":" ++ version ++ " not installed")) := by
  refine ⟨?_, ?_, ?_⟩
  · intro c hfind hact
    simp [ComponentManager.removeComponent, hfind, hact]
  · intro c hfind
    constructor
    · simp [ComponentManager.removeComponent, hfind, Except.isOk, Except.toBool]
    · intro cm' hok
      simp only [ComponentManager.removeComponent, hfind, Bool.not_true,
        Bool.and_false, Bool.false_eq_true, if_false] at hok
      cases hok
      exact List.length_eraseP_add_one (List.mem_of_find?_eq_some hfind)
        (List.find?_some hfind)
  · intro hfind
    simp [ComponentManager.removeComponent, hfind]

/-- C3 witness: in the two-entry example ledger, removing the active
`dingo-mds v1.0.0` without force fails with the active-component error,
and with force it succeeds. -/
theorem removeComponent_witness :
    managerLedger.removeComponent "dingo-mds" "v1.0.0" false false =
      Except.error "cannot remove active component" ∧
    (managerLedger.removeComponent "dingo-mds" "v1.0.0" true false).isOk = true := by
  have h := removeComponent_spec managerLedger "dingo-mds" "v1.0.0" false
  exact ⟨h.1 compMds100 rfl rfl, (h.2.1 compMds100 rfl).1⟩

/-- C5: when the `(name, version)` entry exists with stored release `r`,
`UpdateState` answers true and marks the entry updatable exactly when the
remote release is strictly greater than `r` in string order (other entries
are unchanged in place); an equal or smaller remote release, or the
absence of a matching entry, answers false and leaves the ledger as it
was. -/
theorem updateState_spec (cm : ComponentManager) (name version release : String) :
    (∀ c, cm.installed.find? (matchesComponent name version) = some c →
      (c.release < release →
        (cm.updateState name version release).1 = true ∧
        (∀ c' ∈ (cm.updateState name version release).2.installed,
          c'.name = name → c'.version = version → c'.updatable = true) ∧
        List.Forall₂ (fun a b => ¬(a.name = name ∧ a.version = version) → b = a)
          cm.installed (cm.updateState name version release).2.installed) ∧
      (¬ c.release < release → cm.updateState name version release = (false, cm))) ∧
    (cm.installed.find? (matchesComponent name version) = none →
      cm.updateState name version release = (false, cm)) := by
  constructor
  · intro c hfind
    constructor
    · intro hlt
      have hunfold : cm.updateState name version release =
          (true, { cm with installed := cm.installed.map fun d =>
            if matchesComponent name version d then { d with updatable := true } else d }) := by
        simp [ComponentManager.updateState, hfind, hlt]
      rw [hunfold]
      refine ⟨rfl, ?_, ?_⟩
      · intro c' hc' h1 h2
        rcases List.mem_map.mp hc' with ⟨a, ha, rfl⟩
        cases hma : matchesComponent name version a with
        | true => simp [hma]
        | false =>
          simp only [hma, Bool.false_eq_true, if_false] at h1 h2 ⊢
          exact absurd ((matchesComponent_iff name version a).mpr ⟨h1, h2⟩)
            (by rw [hma]; exact Bool.false_ne_true)
      · apply forall₂_map_self
        intro a _ hna
        cases hma : matchesComponent name version a with
        | true => exact absurd ((matchesComponent_iff name version a).mp hma) hna
        | false => simp [hma]
    · intro hnlt
      simp [ComponentManager.updateState, hfind, hnlt]
  · intro hfind
    simp [ComponentManager.updateState, hfind]

/-- C5 witness: a strictly newer remote release for `dingo-mds v1.0.0`
answers true; an older one answers false and changes nothing; an unknown
component answers false and changes nothing. -/
theorem updateState_witness :
    (managerLedger.updateState "dingo-mds" "v1.0.0" "2023-03-01T00:00:00Z").1 = true ∧
    managerLedger.updateState "dingo-mds" "v1.0.0" "2022-01-01T00:00:00Z" =
      (false, managerLedger) ∧
    managerLedger.updateState "nonexistent" "v1.0.0" "2023-01-01T00:00:00Z" =
      (false, managerLedger) := by
  refine ⟨?_, ?_, ?_⟩
  · exact (((updateState_spec managerLedger "dingo-mds" "v1.0.0"
      "2023-03-01T00:00:00Z").1 compMds100 rfl).1
        (by rw [string_lt_iff]; decide)).1
  · exact ((updateState_spec managerLedger "dingo-mds" "v1.0.0"
      "2022-01-01T00:00:00Z").1 compMds100 rfl).2
        (by rw [string_lt_iff]; decide)
  · exact (updateState_spec managerLedger "nonexistent" "v1.0.0"
      "2023-01-01T00:00:00Z").2 rfl

section UrlLemmas

theorem urlJoin_ne_empty (a b : String) : urlJoin a b ≠ "" := by
  intro h
  have hlen : (urlJoin a b).length = 0 := by rw [h]; rfl
  simp only [urlJoin, String.length_append] at hlen
  have hone : ("/" : String).length = 1 := rfl
  omega

theorem urlJoin_mirror_leading (a b : String) : a.data <+: (urlJoin a b).data := by
  have h : (urlJoin a b).data = (a.data ++ ("/" : String).data) ++ b.data := rfl
  rw [h, List.append_assoc]
  exact List.prefix_append _ _

end UrlLemmas

/-- C9: listing the available versions of a loaded catalog returns exactly
one record per tag plus one per branch (commits contribute none), every
record carrying the requested name, `installed=false`, `active=false` and
a non-empty URL led by the configured mirror base; with no catalog for the
name the operation fails and returns no records. -/
theorem listAvailable_spec (cm : ComponentManager) (name : String) :
    (∀ repo, List.lookup name cm.repodata = some repo →
      ∀ l, cm.loadAvailableComponentVersions name = Except.ok l →
        l.length = repo.tags.length + repo.branches.length ∧
        ∀ c ∈ l, c.name = name ∧ c.isInstalled = false ∧ c.isActive = false ∧
          c.url ≠ "" ∧ cm.mirror.data <+: c.url.data) ∧
    (List.lookup name cm.repodata = none →
      cm.loadAvailableComponentVersions name =
        Except.error (name ++ " not found in repository")) := by
  constructor
  · intro repo hrepo l hok
    simp only [ComponentManager.loadAvailableComponentVersions, hrepo] at hok
    cases hok
    constructor
    · simp [List.length_append, List.length_map]
    · intro c hc
      rcases List.mem_append.mp hc with h | h <;>
        rcases List.mem_map.mp h with ⟨p, hp, rfl⟩ <;>
        exact ⟨rfl, rfl, rfl, urlJoin_ne_empty _ _, urlJoin_mirror_leading _ _⟩
  · intro hnone
    simp [ComponentManager.loadAvailableComponentVersions, hnone]

/-- C9 witness: the example catalog lists one record per tag plus one per
branch for `dingo-mds`; an unknown component fails. -/
theorem listAvailable_witness :
    availEx.length = catalogThree.tags.length + catalogThree.branches.length ∧
    managerRepo.loadAvailableComponentVersions "nonexistent" =
      Except.error ("nonexistent" ++ " not found in repository") :=
  ⟨((listAvailable_spec managerRepo "dingo-mds").1 catalogThree rfl availEx rfl).1,
   (listAvailable_spec managerRepo "nonexistent").2 rfl⟩
